import Mathlib

/-!
Shallow embedding of the dataset pipeline core of
src/server/python_src/pipeline_engine.py (function run_pipeline):
the TextNormalizer regex chain (Block 4, character normalize through the
hyphen line-break fix), the dictionary join and split repair passes, the
sentence-based chunk assembly (Blocks 5 and 6) and the dataset export
(Block 8: pair dataset and train/val/test split).

Python strings are modelled as Lean String (operated on through .data as
List Char); str.split() is modelled by pySplit; " ".join by sjoin;
str.isalpha and str.lower are modelled on the ASCII letters (the claims and
all concrete inputs are ASCII); the word_set loaded from the frequency
dictionary is modelled as a list of strings used as a finite set; the
stdlib random generator (seeded with random.seed(42)) is modelled as an
abstract deterministic generator value, see RNG below.
-/

/-- Whitespace recognised by Python's str.split(), ASCII subset:
space, tab, newline, carriage return, vertical tab, form feed. -/
def isPySpace (c : Char) : Bool :=
  c = ' ' || c = '\t' || c = '\n' || c = '\r' || c = '\x0b' || c = '\x0c'

/-- Helper for pySplit: scan the characters, accumulating the current token
reversed in acc; a whitespace character ends the token (empty tokens are
dropped, as Python's split() with no argument does). -/
def pySplitAux : List Char → List Char → List String
  | [], acc => if acc.isEmpty then [] else [String.mk acc.reverse]
  | c :: cs, acc =>
    if isPySpace c then
      if acc.isEmpty then pySplitAux cs [] else String.mk acc.reverse :: pySplitAux cs []
    else pySplitAux cs (c :: acc)

/-- Model of Python text.split(): tokens separated by runs of whitespace. -/
def pySplit (s : String) : List String := pySplitAux s.data []

/-- Model of Python " ".join(tokens). -/
def sjoin : List String → String
  | [] => ""
  | [t] => t
  | t :: t' :: ts => t ++ " " ++ sjoin (t' :: ts)

/-- ASCII letter test. -/
def isAsciiLetter (c : Char) : Bool :=
  ('a' ≤ c && c ≤ 'z') || ('A' ≤ c && c ≤ 'Z')

/-- Model of Python tok.isalpha() (restricted to ASCII letters): nonempty and
all characters are letters. -/
def pyIsAlpha (s : String) : Bool := !s.data.isEmpty && s.data.all isAsciiLetter

/-- ASCII lower-casing of one character. -/
def lowerChar (c : Char) : Char :=
  if 'A' ≤ c && c ≤ 'Z' then Char.ofNat (c.toNat + 32) else c

/-- Model of Python s.lower() (ASCII). -/
def pyLower (s : String) : String := String.mk (s.data.map lowerChar)

/-!
## Dictionary join pass (Block 4, "SAFE SMALL WORD JOIN")

Python source (word_set nonempty):
  tokens = text.split(); fixed = []; i = 0
  while i < len(tokens):
      if i+1 < len(tokens):
          a = tokens[i]; b = tokens[i+1]
          if len(a) <= 2 and a.isalpha() and b.isalpha():
              broken_pairs += 1
              merged = (a + b).lower()
              if merged in word_set:
                  fixed.append(a + b); joins += 1; i += 2; continue
      fixed.append(tokens[i]); i += 1
  text = " ".join(fixed)

The while loop over the index i is the structural recursion below over the
suffix tokens[i:].  Result: (fixed token list, broken_pairs, joins). -/
def joinTokens (lex : List String) : List String → List String × Nat × Nat
  | [] => ([], 0, 0)
  | [t] => ([t], 0, 0)
  | a :: b :: rest =>
    if a.length ≤ 2 && pyIsAlpha a && pyIsAlpha b then
      if lex.contains (pyLower (a ++ b)) then
        let r := joinTokens lex rest
        ((a ++ b) :: r.1, r.2.1 + 1, r.2.2 + 1)
      else
        let r := joinTokens lex (b :: rest)
        (a :: r.1, r.2.1 + 1, r.2.2)
    else
      let r := joinTokens lex (b :: rest)
      (a :: r.1, r.2.1, r.2.2)

/-- The join pass over the whole text, gated on a nonempty word set
(Python: `if word_set:`). Result: (text, broken_pairs, joins). -/
def joinStage (lex : List String) (text : String) : String × Nat × Nat :=
  if lex.isEmpty then (text, 0, 0)
  else
    let r := joinTokens lex (pySplit text)
    (sjoin r.1, r.2)

/-!
## Dictionary split pass (Block 4, "SAFE DICTIONARY SPLIT")

Python source (word_set nonempty), per token:
  low = tok.lower()
  if low in word_set or not tok.isalpha() or len(tok) < 4:
      fixed.append(tok); continue
  repaired = False
  for cut in range(1, len(tok)):
      left = low[:cut]; right = low[cut:]
      if left in word_set and right in word_set:
          fixed.append(left + " " + right); split_fixes += 1; repaired = True; break
  if not repaired: fixed.append(tok)
-/

/-- Pass-through guard of the split pass: the token's lowercase form is
already known, or the token is not purely alphabetic, or shorter than 4. -/
def splitGuard (lex : List String) (tok : String) : Bool :=
  lex.contains (pyLower tok) || !pyIsAlpha tok || tok.length < 4

/-- One candidate cut of the split pass: both lowercase halves are in the
word set (Python: left in word_set and right in word_set). -/
def cutOK (lex : List String) (tok : String) (cut : Nat) : Bool :=
  lex.contains (String.mk ((pyLower tok).data.take cut)) &&
  lex.contains (String.mk ((pyLower tok).data.drop cut))

/-- One token of the split pass; the for-loop with break is List.find? over
range(1, len(tok)).  Result: (emitted string, 1 if a split fix happened). -/
def splitTok (lex : List String) (tok : String) : String × Nat :=
  if splitGuard lex tok then (tok, 0)
  else
    match (List.range' 1 (tok.length - 1)).find? (cutOK lex tok) with
    | some cut =>
      (String.mk ((pyLower tok).data.take cut) ++ " " ++
        String.mk ((pyLower tok).data.drop cut), 1)
    | none => (tok, 0)

/-- The split pass over the whole text, gated on a nonempty word set.
Result: (text, split_fixes). -/
def splitStage (lex : List String) (text : String) : String × Nat :=
  if lex.isEmpty then (text, 0)
  else
    let fixed := (pySplit text).map (splitTok lex)
    (sjoin (fixed.map Prod.fst), (fixed.map Prod.snd).foldl (· + ·) 0)

/-!
## Chunk assembly (Blocks 5 and 6)

Python source, with CHUNK_WORDS = 180, OVERLAP_WORDS = 30:
  chunks = []; current_words = []
  for sent in good:
      w = sent.split()
      if len(current_words) + len(w) <= CHUNK_WORDS:
          current_words.extend(w)
      else:
          if len(current_words) > 80:
              chunks.append(" ".join(current_words))
          current_words = current_words[-OVERLAP_WORDS:] + w
  if len(current_words) > 80:
      chunks.append(" ".join(current_words))

Chunks are modelled at the word level (each chunk is its list of words; the
emitted string is " ".join of that list). current_words[-30:] is
drop (length - 30), which for lists shorter than 30 words is the whole
list, as in Python. -/
def chunkStep (st : List (List String) × List String) (w : List String) :
    List (List String) × List String :=
  let chunks := st.1
  let cur := st.2
  if cur.length + w.length ≤ 180 then (chunks, cur ++ w)
  else
    let chunks' := if cur.length > 80 then chunks ++ [cur] else chunks
    (chunks', cur.drop (cur.length - 30) ++ w)

/-- Chunk assembly over the sentence sequence (each sentence given as its
word list, Python `sent.split()`), with the final flush. -/
def chunkAssemble (sents : List (List String)) : List (List String) :=
  let st := sents.foldl chunkStep ([], [])
  if st.2.length > 80 then st.1 ++ [st.2] else st.1

/-!
## Dataset export (Block 8)

Python source:
  pairs = []
  for i in range(len(chunks) - 1):
      pairs.append({"text_a": chunks[i], "text_b": chunks[i + 1], "label": 1})
  random.seed(42)
  if len(chunks) >= 2:
      for _ in range(len(chunks)):
          a, b = random.sample(chunks, 2)
          pairs.append({"text_a": a, "text_b": b, "label": 0})
  ...
  random.seed(42)
  shuffled = records.copy()
  random.shuffle(shuffled)
  n = len(shuffled)
  train_end = int(n * 0.8); val_end = int(n * 0.9)
  train_data = shuffled[:train_end]; val_data = shuffled[train_end:val_end]
  test_data = shuffled[val_end:]

The stdlib Mersenne Twister is modelled by an abstract deterministic
generator: a state type, the state random.seed(42) establishes, a sample2
operation standing for random.sample(chunks, 2) (returning the two drawn
positions and the next state; its documented contract, drawing two distinct
positions of the population, is the validity hypothesis used where needed),
and a shuffle operation standing for random.shuffle. -/

/-- One labeled pair record of pairs.json. -/
structure PairRec where
  text_a : String
  text_b : String
  label : Nat
deriving DecidableEq, Repr

/-- One indexed record of chunks_with_id.json. -/
structure RecordR where
  id : Nat
  text : String
  word_count : Nat
deriving DecidableEq, Repr

/-- Abstract model of the seeded stdlib generator. -/
structure RNG (σ : Type) where
  seedFn : Nat → σ
  sample2 : Nat → σ → (Nat × Nat) × σ
  shuffleFn : σ → List RecordR → List RecordR × σ

/-- The negative-sampling loop: `for _ in range(k): random.sample(chunks, 2)`
over a population of n chunks, listing the drawn index pairs in draw order. -/
def drawNegs {σ : Type} (R : RNG σ) (n : Nat) : Nat → σ → List (Nat × Nat)
  | 0, _ => []
  | k + 1, s =>
    let d := R.sample2 n s
    d.1 :: drawNegs R n k d.2

/-- The pair dataset: positives over consecutive chunks, then (after
random.seed(42), which discards the incoming generator state s) the
negative draws, skipped when fewer than 2 chunks exist. -/
def mkPairs {σ : Type} (R : RNG σ) (_s : σ) (chunks : List String) : List PairRec :=
  let pos := (List.range (chunks.length - 1)).map
    (fun i => { text_a := chunks.getD i "", text_b := chunks.getD (i + 1) "", label := 1 })
  let s1 := R.seedFn 42
  let negIdx := if chunks.length ≥ 2 then drawNegs R chunks.length chunks.length s1 else []
  pos ++ negIdx.map
    (fun p => { text_a := chunks.getD p.1 "", text_b := chunks.getD p.2 "", label := 0 })

/-- The master indexed records (id, text, word_count). -/
def mkRecords (chunks : List String) : List RecordR :=
  (List.range chunks.length).map
    (fun i => { id := i, text := chunks.getD i "", word_count := (pySplit (chunks.getD i "")).length })

/-- The train/val/test split: random.seed(42) (discarding the incoming
state s), shuffle the records, cut at int(n*0.8) and int(n*0.9).
The float expressions int(n*0.8) and int(n*0.9) are modelled as
n*8/10 and n*9/10 (floor); no claim below depends on the exact cut values,
only on their determinism. -/
def splitData {σ : Type} (R : RNG σ) (_s : σ) (records : List RecordR) :
    List RecordR × List RecordR × List RecordR :=
  let s1 := R.seedFn 42
  let shuffled := (R.shuffleFn s1 records).1
  let n := shuffled.length
  let te := n * 8 / 10
  let ve := n * 9 / 10
  (shuffled.take te, (shuffled.drop te).take (ve - te), shuffled.drop ve)

/-- A concrete deterministic generator instance (used to evaluate the
export model on concrete inputs): sample2 always draws positions 0 and 1
when the population allows it. -/
def toyRNG : RNG Nat where
  seedFn := id
  sample2 := fun n s => ((0, if 1 < n then 1 else 0), s + 1)
  shuffleFn := fun s l => (l, s)

/-!
## TextNormalizer (Block 4, character normalize through the hyphen fix)

Python source, in order:
  for k,v in ligatures.items(): text = text.replace(k, v)
  for k,v in quotes.items(): text = text.replace(k, v)
  text = re.sub(zero-width class, '', text)
  text = re.sub(http[s]?://nonspace+, '', text)
  text = re.sub(www.nonspace+, '', text)
  text = re.sub(Page digits+, '', text, flags=re.I)
  text = re.sub(space-or-tab runs, ' ', text)
  text = re.sub(spaces newline spaces, newline, text)
  text = re.sub(lowercase hyphen newline lowercase, the two letters, text)
-/

/-- Single-character str.replace: every occurrence of k becomes v. -/
def replaceChar (k : Char) (v : List Char) (cs : List Char) : List Char :=
  cs.flatMap (fun c => if c = k then v else [c])

/-- Apply a replacement table left to right (Python dict iteration order). -/
def applyTable : List (Char × List Char) → List Char → List Char
  | [], cs => cs
  | kv :: t, cs => applyTable t (replaceChar kv.1 kv.2 cs)

/-- The ligature replacements of the source. -/
def ligTable : List (Char × List Char) :=
  [('ﬁ', ['f', 'i']), ('ﬂ', ['f', 'l']), ('ﬀ', ['f', 'f']),
   ('ﬃ', ['f', 'f', 'i']), ('ﬄ', ['f', 'f', 'l'])]

/-- The curly quote and dash replacements of the source. -/
def quoteTable : List (Char × List Char) :=
  [('’', ['\x27']), ('‘', ['\x27']), ('“', ['"']),
   ('”', ['"']), ('–', ['-']), ('—', ['-']), ('−', ['-'])]

/-- The zero-width characters removed by the stage (U+200B..U+200D, U+FEFF). -/
def isZW (c : Char) : Bool :=
  c = '​' || c = '‌' || c = '‍' || c = '﻿'

/-- Character-normalization prefix of the stage: ligature expansion, quote
and dash mapping, zero-width removal, in source order. -/
def charNormalize (cs : List Char) : List Char :=
  (applyTable quoteTable (applyTable ligTable cs)).filter (fun c => !isZW c)

/-- Generic model of re.sub for the patterns below, with a fuel argument
for structural recursion (fuel = length of the text always suffices, since
every step consumes at least one character): m tries to match the pattern
at the current position, returning the replacement and the number k ≥ 1 of
characters the match consumes; the scan is leftmost and non-overlapping,
resuming right after each match, as re.sub does. -/
def rsubFuel (m : List Char → Option (List Char × Nat)) : Nat → List Char → List Char
  | 0, cs => cs
  | _ + 1, [] => []
  | fuel + 1, c :: cs =>
    match m (c :: cs) with
    | some (rep, k) => rep ++ rsubFuel m fuel (cs.drop (k - 1))
    | none => c :: rsubFuel m fuel cs

/-- Model of re.sub(pattern, replacement, text) for a match-at-position
function m. -/
def rsub (m : List Char → Option (List Char × Nat)) (cs : List Char) : List Char :=
  rsubFuel m cs.length cs

/-- Length of the maximal leading run of non-whitespace characters: the
greedy match of one-or-more non-space, when positive. -/
def nonSpaceRun (cs : List Char) : Nat := (cs.takeWhile (fun c => !isPySpace c)).length

/-- Match-at-position for the URL pattern: http, optional s, ://, then at
least one non-space character, greedily. -/
def urlMatch (cs : List Char) : Option (List Char × Nat) :=
  if ['h', 't', 't', 'p', 's', ':', '/', '/'].isPrefixOf cs then
    let r := nonSpaceRun (cs.drop 8)
    if r ≥ 1 then some ([], 8 + r) else none
  else if ['h', 't', 't', 'p', ':', '/', '/'].isPrefixOf cs then
    let r := nonSpaceRun (cs.drop 7)
    if r ≥ 1 then some ([], 7 + r) else none
  else none

/-- Match-at-position for the www pattern: www. then at least one
non-space character, greedily. -/
def wwwMatch (cs : List Char) : Option (List Char × Nat) :=
  if ['w', 'w', 'w', '.'].isPrefixOf cs then
    let r := nonSpaceRun (cs.drop 4)
    if r ≥ 1 then some ([], 4 + r) else none
  else none

/-- Match-at-position for the case-insensitive page-marker pattern:
P a g e (any case), one space, then at least one digit, greedily. -/
def pageMatch (cs : List Char) : Option (List Char × Nat) :=
  match cs with
  | p :: a :: g :: e :: sp :: rest =>
    if lowerChar p = 'p' && lowerChar a = 'a' && lowerChar g = 'g' &&
        lowerChar e = 'e' && sp = ' ' then
      let r := (rest.takeWhile Char.isDigit).length
      if r ≥ 1 then some ([], 5 + r) else none
    else none
  | _ => none

/-- Match-at-position for runs of spaces and tabs, replaced by one space. -/
def spaceTabMatch (cs : List Char) : Option (List Char × Nat) :=
  let r := (cs.takeWhile (fun c => c = ' ' || c = '\t')).length
  if r ≥ 1 then some ([' '], r) else none

/-- Match-at-position for spaces around a newline: zero or more spaces, a
newline, zero or more spaces, replaced by the newline. -/
def nlMatch (cs : List Char) : Option (List Char × Nat) :=
  let a := (cs.takeWhile (fun c => c = ' ')).length
  match (cs.drop a).head? with
  | some '\n' =>
    let b := ((cs.drop (a + 1)).takeWhile (fun c => c = ' ')).length
    some (['\n'], a + 1 + b)
  | _ => none

/-- Match-at-position for the hyphen line-break fix: lowercase letter,
hyphen, newline, lowercase letter, replaced by the two letters. -/
def hyMatch (cs : List Char) : Option (List Char × Nat) :=
  match cs with
  | c1 :: h :: nl :: c2 :: _ =>
    if ('a' ≤ c1 && c1 ≤ 'z') && h = '-' && nl = '\n' && ('a' ≤ c2 && c2 ≤ 'z') then
      some ([c1, c2], 4)
    else none
  | _ => none

/-- The full TextNormalizer stage of the claim (lines 297-329 of the
source): character normalize, artifact removal, whitespace normalize,
hyphen line-break fix, in source order. -/
def normalizeText (s : String) : String :=
  String.mk (rsub hyMatch (rsub nlMatch (rsub spaceTabMatch (rsub pageMatch
    (rsub wwwMatch (rsub urlMatch (charNormalize s.data)))))))

/-!
## Helper lemmas
-/

/-- Each iteration of the negative-sampling loop appends one pair. -/
theorem drawNegs_length {σ : Type} (R : RNG σ) (n : Nat) :
    ∀ (k : Nat) (s : σ), (drawNegs R n k s).length = k
  | 0, _ => rfl
  | k + 1, s => by simp [drawNegs, drawNegs_length R n k]

/-- Every pair listed by the negative-sampling loop is one of its draws. -/
theorem drawNegs_mem {σ : Type} (R : RNG σ) (n : Nat)
    (hR : ∀ (st : σ), 2 ≤ n →
      (R.sample2 n st).1.1 < n ∧ (R.sample2 n st).1.2 < n ∧
        (R.sample2 n st).1.1 ≠ (R.sample2 n st).1.2)
    (h2 : 2 ≤ n) :
    ∀ (k : Nat) (s : σ), ∀ p ∈ drawNegs R n k s, p.1 < n ∧ p.2 < n ∧ p.1 ≠ p.2
  | 0, s => by simp [drawNegs]
  | k + 1, s => by
    intro p hp
    rw [drawNegs] at hp
    rcases List.mem_cons.mp hp with h | h
    · subst h
      exact hR s h2
    · exact drawNegs_mem R n hR h2 k (R.sample2 n s).2 p h

/-!
## Claim C6 — empty Lexicon disables both repair passes
-/

/-- C6: if the Lexicon is empty, the join pass and the split pass leave the
text exactly unchanged and the broken-pair, join and split counters are all
zero. -/
theorem empty_lexicon_no_ops (text : String) (lex : List String)
    (h : lex.isEmpty = true) :
    joinStage lex text = (text, 0, 0) ∧ splitStage lex text = (text, 0) := by
  constructor
  · simp [joinStage, h]
  · simp [splitStage, h]

/-- Witness for C6 at a concrete text with newlines and candidate tokens. -/
theorem empty_lexicon_no_ops_witness :
    joinStage [] "t he\nina" = ("t he\nina", 0, 0) ∧
      splitStage [] "t he\nina" = ("t he\nina", 0) :=
  empty_lexicon_no_ops "t he\nina" [] rfl

/-!
## Claim C7 — pair record count
-/

/-- C7: the pair dataset has (n-1) + n records when the chunk count n is at
least 2, and n - 1 records (in Nat, that is max(n-1,0), hence 0 for n ≤ 1)
otherwise, for any generator model and incoming generator state. -/
theorem pairs_count {σ : Type} (R : RNG σ) (s : σ) (chunks : List String) :
    (mkPairs R s chunks).length =
      if 2 ≤ chunks.length then (chunks.length - 1) + chunks.length
      else chunks.length - 1 := by
  by_cases h : 2 ≤ chunks.length
  · simp [mkPairs, h, drawNegs_length]
  · simp [mkPairs, h]

/-!
## Claim C8 — two-run determinism of the export
-/

/-- C8: the export re-seeds the generator with the fixed seed 42 before the
negative draws and again before the shuffle, discarding the incoming
generator state; hence two runs on identical chunk sequences produce the
identical pair list (so identical negative pairs) and the identical
train/val/test partition, whatever states the two runs start from. -/
theorem export_two_run_deterministic {σ : Type} (R : RNG σ) (s1 s2 : σ)
    (chunks : List String) :
    mkPairs R s1 chunks = mkPairs R s2 chunks ∧
      splitData R s1 (mkRecords chunks) = splitData R s2 (mkRecords chunks) :=
  ⟨rfl, rfl⟩

/-!
## Claim C10 — silent word loss in the chunk assembler
-/

set_option maxRecDepth 40000 in
/-- C10: whenever a sentence would push the buffer past 180 words while the
buffer holds at most 80 words, the buffer is not emitted and is replaced by
its last 30 words followed by the new sentence; concretely, for a 70-word
first sentence ("q" then 69 "p") followed by a 120-word sentence, the only
emitted chunk is the last 30 "p" words followed by the second sentence, so
the word "q" of the kept first sentence appears in no emitted chunk. -/
theorem chunk_discard_loses_words :
    (∀ (chunks : List (List String)) (cur w : List String),
        180 < cur.length + w.length → cur.length ≤ 80 →
        chunkStep (chunks, cur) w = (chunks, cur.drop (cur.length - 30) ++ w)) ∧
    (chunkAssemble ["q" :: List.replicate 69 "p", List.replicate 120 "r"] =
        [List.replicate 30 "p" ++ List.replicate 120 "r"] ∧
      "q" ∈ ("q" :: List.replicate 69 "p") ∧
      ∀ c ∈ chunkAssemble ["q" :: List.replicate 69 "p", List.replicate 120 "r"],
        "q" ∉ c) := by
  constructor
  · intro chunks cur w h1 h2
    simp only [chunkStep]
    rw [if_neg (by omega), if_neg (by omega)]
  · refine ⟨by decide, by decide, by decide⟩

/-!
## Claim C1 — negative pairs and adjacency
-/

/-- C1 counterexample: with exactly two chunks, the exported pair list
contains a label-0 record whose two texts are the chunks at the consecutive
positions 0 and 1, so a negative pair can be adjacent. -/
theorem negative_pair_adjacent :
    (["A", "B"] : List String).getD 0 "" = "A" ∧
      (["A", "B"] : List String).getD 1 "" = "B" ∧
      ({ text_a := "A", text_b := "B", label := 0 } : PairRec) ∈
        mkPairs toyRNG 0 ["A", "B"] := by
  refine ⟨rfl, rfl, by decide⟩

/-- C1 amended: each label-0 record is built from two chunks drawn at
distinct positions (random.sample draws 2 distinct population members),
but the positions need not be non-adjacent; with exactly 2 chunks every
drawn pair is adjacent. -/
theorem negative_pairs_distinct_only {σ : Type} (R : RNG σ) (chunks : List String)
    (hR : ∀ (st : σ), 2 ≤ chunks.length →
      (R.sample2 chunks.length st).1.1 < chunks.length ∧
        (R.sample2 chunks.length st).1.2 < chunks.length ∧
        (R.sample2 chunks.length st).1.1 ≠ (R.sample2 chunks.length st).1.2)
    (h2 : 2 ≤ chunks.length) :
    ∀ p ∈ drawNegs R chunks.length chunks.length (R.seedFn 42),
      (p.1 < chunks.length ∧ p.2 < chunks.length ∧ p.1 ≠ p.2) ∧
      (chunks.length = 2 → (p.2 = p.1 + 1 ∨ p.1 = p.2 + 1)) := by
  intro p hp
  have h := drawNegs_mem R chunks.length hR h2 chunks.length (R.seedFn 42) p hp
  exact ⟨h, fun he => by omega⟩

/-- Witness for C1 amended, at the concrete generator model and three
chunks: the first drawn pair has distinct in-range positions. -/
theorem negative_pairs_distinct_only_witness :
    (((0 : Nat), (1 : Nat)).1 < (["A", "B", "C"] : List String).length ∧
        ((0 : Nat), (1 : Nat)).2 < (["A", "B", "C"] : List String).length ∧
        ((0 : Nat), (1 : Nat)).1 ≠ ((0 : Nat), (1 : Nat)).2) ∧
      ((["A", "B", "C"] : List String).length = 2 →
        (((0 : Nat), (1 : Nat)).2 = ((0 : Nat), (1 : Nat)).1 + 1 ∨
          ((0 : Nat), (1 : Nat)).1 = ((0 : Nat), (1 : Nat)).2 + 1)) := by
  refine negative_pairs_distinct_only toyRNG ["A", "B", "C"] ?_ (by decide)
    ((0 : Nat), (1 : Nat)) (by decide)
  intro st h2
  simp [toyRNG]

/-!
## Claim C4 — join pass merge condition
-/

/-- C4 counterexample: the adjacent tokens "abc","d" have lowercase
concatenation "abcd" in the Lexicon, yet the join pass merges nothing (the
first token is longer than 2 characters), so a pair is not merged whenever
the concatenation is in the Lexicon. -/
theorem join_concat_without_merge :
    (["abcd"] : List String).contains (pyLower ("abc" ++ "d")) = true ∧
      joinTokens ["abcd"] ["abc", "d"] = (["abc", "d"], 0, 0) ∧
      joinStage ["abcd"] "abc d" = ("abc d", 0, 0) := by
  refine ⟨by decide, by decide, by decide⟩

/-- C4 amended: an adjacent pair a,b considered at the scan cursor is
merged into a+b exactly when a has length at most 2, both tokens are
purely alphabetic, and the lowercase concatenation is in the Lexicon
(b nonempty, as whitespace-split tokens always are). -/
theorem join_merge_iff (lex : List String) (a b : String) (rest : List String)
    (hb : b ≠ "") :
    (joinTokens lex (a :: b :: rest)).1 = (a ++ b) :: (joinTokens lex rest).1 ↔
      (a.length ≤ 2 ∧ pyIsAlpha a = true ∧ pyIsAlpha b = true ∧
        lex.contains (pyLower (a ++ b)) = true) := by
  have hblen : 0 < b.length := by
    cases b with
    | mk data =>
      cases data with
      | nil => exact absurd rfl hb
      | cons c cs => simp [String.length]
  have hne : a ≠ a ++ b := by
    intro h
    have h2 := congrArg String.length h
    rw [String.length_append] at h2
    omega
  by_cases h1 : (a.length ≤ 2 && pyIsAlpha a && pyIsAlpha b) = true
  · by_cases h2 : lex.contains (pyLower (a ++ b)) = true
    · have heq : (joinTokens lex (a :: b :: rest)).1 = (a ++ b) :: (joinTokens lex rest).1 := by
        simp only [joinTokens, h1, h2, if_true]
      rw [heq]
      simp only [eq_self_iff_true, true_iff]
      simp only [Bool.and_eq_true, decide_eq_true_eq] at h1
      exact ⟨h1.1.1, h1.1.2, h1.2, h2⟩
    · have heq : (joinTokens lex (a :: b :: rest)).1 = a :: (joinTokens lex (b :: rest)).1 := by
        simp only [joinTokens, h1, if_true]
        rw [if_neg h2]
      rw [heq]
      constructor
      · intro h
        exact absurd (List.cons_eq_cons.mp h).1 hne
      · rintro ⟨_, _, _, hcon⟩
        exact absurd hcon h2
  · have heq : (joinTokens lex (a :: b :: rest)).1 = a :: (joinTokens lex (b :: rest)).1 := by
      simp only [joinTokens]
      rw [if_neg h1]
    rw [heq]
    constructor
    · intro h
      exact absurd (List.cons_eq_cons.mp h).1 hne
    · rintro ⟨ha, hpa, hpb, _⟩
      exact absurd (by simp [ha, hpa, hpb]) h1

/-- Witness for C4 amended: "t","he" with "the" in the Lexicon merge. -/
theorem join_merge_iff_witness :
    (joinTokens ["the"] ["t", "he"]).1 = ["the"] := by
  have h := (join_merge_iff ["the"] "t" "he" [] (by decide)).mpr
    ⟨by decide, by decide, by decide, by decide⟩
  rw [h]
  decide

/-!
## Claim C5 — split pass characterization
-/

/-- List.find? over range' s n returns the least element satisfying the
predicate: it satisfies it, lies in the range, and everything below it in
the range fails the predicate. -/
theorem find?_range'_least (p : Nat → Bool) :
    ∀ (n s c : Nat), (List.range' s n).find? p = some c →
      p c = true ∧ s ≤ c ∧ c < s + n ∧ ∀ d, s ≤ d → d < c → p d = false
  | 0, s, c => by simp [List.range']
  | n + 1, s, c => by
    intro h
    rw [show List.range' s (n + 1) = s :: List.range' (s + 1) n from rfl] at h
    cases hp : p s with
    | true =>
      rw [List.find?_cons_of_pos _ hp] at h
      cases h
      exact ⟨hp, Nat.le_refl s, by omega, fun d hd1 hd2 => absurd hd1 (by omega)⟩
    | false =>
      rw [List.find?_cons_of_neg _ (by simp [hp])] at h
      obtain ⟨h1, h2, h3, h4⟩ := find?_range'_least p n (s + 1) c h
      refine ⟨h1, by omega, by omega, fun d hd1 hd2 => ?_⟩
      rcases Nat.eq_or_lt_of_le hd1 with he | hl
      · rw [← he]
        exact hp
      · exact h4 d (by omega) hd2

/-- List.find? over range' s n succeeds when some element of the range
satisfies the predicate. -/
theorem find?_range'_isSome (p : Nat → Bool) (n s cut : Nat) (h1 : s ≤ cut)
    (h2 : cut < s + n) (hp : p cut = true) :
    ∃ c, (List.range' s n).find? p = some c := by
  cases hf : (List.range' s n).find? p with
  | some c => exact ⟨c, rfl⟩
  | none =>
    exact absurd hp (List.find?_eq_none.mp hf cut (List.mem_range'_1.mpr ⟨h1, h2⟩))

/-- C5: a token already in the Lexicon (in lowercase form), non-alphabetic
or shorter than 4 passes through unchanged; otherwise, if some cut
position in 1..length-1 puts both lowercase halves in the Lexicon, the
token is replaced by left + " " + right at the least such cut, and if no
cut position works the token passes through unchanged. -/
theorem splitTok_spec (lex : List String) (tok : String) :
    (splitGuard lex tok = true → splitTok lex tok = (tok, 0)) ∧
    (splitGuard lex tok = false →
      (∀ cut, 1 ≤ cut → cut < tok.length → cutOK lex tok cut = true →
        ∃ c, 1 ≤ c ∧ c ≤ cut ∧ cutOK lex tok c = true ∧
          (∀ d, 1 ≤ d → d < c → cutOK lex tok d = false) ∧
          splitTok lex tok =
            (String.mk ((pyLower tok).data.take c) ++ " " ++
              String.mk ((pyLower tok).data.drop c), 1)) ∧
      ((∀ cut, 1 ≤ cut → cut < tok.length → cutOK lex tok cut = false) →
        splitTok lex tok = (tok, 0))) := by
  constructor
  · intro h
    simp [splitTok, h]
  · intro h
    have hlen : 4 ≤ tok.length := by
      have h' := h
      simp [splitGuard] at h'
      omega
    constructor
    · intro cut hc1 hc2 hcok
      obtain ⟨c, hfind⟩ := find?_range'_isSome (cutOK lex tok) (tok.length - 1) 1 cut hc1
        (by omega) hcok
      obtain ⟨h1, h2, h3, h4⟩ := find?_range'_least (cutOK lex tok) (tok.length - 1) 1 c hfind
      refine ⟨c, h2, ?_, h1, fun d hd1 hd2 => h4 d hd1 hd2, ?_⟩
      · by_contra hgt
        have hf := h4 cut hc1 (by omega)
        rw [hf] at hcok
        cases hcok
      · simp [splitTok, h, hfind]
    · intro hall
      have hnone : (List.range' 1 (tok.length - 1)).find? (cutOK lex tok) = none := by
        rw [List.find?_eq_none]
        intro x hx
        have hm := List.mem_range'_1.mp hx
        rw [hall x hm.1 (by omega)]
        simp
      simp [splitTok, h, hnone]

/-- Witness for C5: "ashe" with Lexicon {a, she, as, he} splits at the
least valid cut 1, giving "a she". -/
theorem splitTok_spec_witness :
    splitTok ["a", "she", "as", "he"] "ashe" = ("a she", 1) := by
  have h := (splitTok_spec ["a", "she", "as", "he"] "ashe").2 (by decide)
  obtain ⟨c, hc1, hc2, hok, hleast, heq⟩ := h.1 1 (by decide) (by decide) (by decide)
  have hc : c = 1 := by omega
  subst hc
  rw [heq]
  decide

/-!
## Claim C9 — rejoin frame effect of the repair passes
-/

/-- Characters of the tokens produced by the split scanner are never
whitespace (tokens are maximal runs of non-whitespace characters). -/
theorem pySplitAux_chars :
    ∀ (cs acc : List Char), (∀ c ∈ acc, isPySpace c = false) →
      ∀ t ∈ pySplitAux cs acc, ∀ c ∈ t.data, isPySpace c = false
  | [], acc => by
    intro hacc t ht c hc
    rw [pySplitAux] at ht
    by_cases he : acc.isEmpty
    · simp [he] at ht
    · rw [if_neg he, List.mem_singleton] at ht
      subst ht
      exact hacc c (List.mem_reverse.mp hc)
  | c0 :: cs, acc => by
    intro hacc t ht c hc
    rw [pySplitAux] at ht
    by_cases hsp : isPySpace c0
    · rw [if_pos hsp] at ht
      by_cases he : acc.isEmpty
      · rw [if_pos he] at ht
        exact pySplitAux_chars cs [] (by simp) t ht c hc
      · rw [if_neg he] at ht
        rcases List.mem_cons.mp ht with h | h
        · subst h
          exact hacc c (List.mem_reverse.mp hc)
        · exact pySplitAux_chars cs [] (by simp) t h c hc
    · rw [if_neg hsp] at ht
      refine pySplitAux_chars cs (c0 :: acc) ?_ t ht c hc
      intro x hx
      rcases List.mem_cons.mp hx with h | h
      · subst h
        exact Bool.eq_false_iff.mpr hsp
      · exact hacc x h

/-- Every character of a single-space join is a space or a character of
one of the joined strings. -/
theorem sjoin_chars : ∀ (ts : List String), ∀ c ∈ (sjoin ts).data,
    c = ' ' ∨ ∃ t ∈ ts, c ∈ t.data
  | [] => by simp [sjoin]
  | [t] => by
    intro c hc
    right
    exact ⟨t, by simp, hc⟩
  | t :: t' :: ts => by
    intro c hc
    rw [sjoin, String.data_append, String.data_append] at hc
    rcases List.mem_append.mp hc with h | h
    · rcases List.mem_append.mp h with h1 | h1
      · right
        exact ⟨t, by simp, h1⟩
      · left
        simpa using h1
    · rcases sjoin_chars (t' :: ts) c h with h1 | ⟨u, hu, hcu⟩
      · left
        exact h1
      · right
        exact ⟨u, by simp [hu], hcu⟩

/-- When the join counter is zero the join pass returned the token list
unchanged. -/
theorem joinTokens_joins_zero (lex : List String) :
    ∀ ts, (joinTokens lex ts).2.2 = 0 → (joinTokens lex ts).1 = ts
  | [] => by simp [joinTokens]
  | [t] => by simp [joinTokens]
  | a :: b :: rest => by
    intro h
    by_cases h1 : (a.length ≤ 2 && pyIsAlpha a && pyIsAlpha b) = true
    · by_cases h2 : lex.contains (pyLower (a ++ b)) = true
      · simp only [joinTokens, h1, h2, if_true] at h
        exact absurd h (by omega)
      · simp only [joinTokens, h1, if_true] at h ⊢
        rw [if_neg h2] at h ⊢
        rw [joinTokens_joins_zero lex (b :: rest) h]
    · simp only [joinTokens] at h ⊢
      rw [if_neg h1] at h ⊢
      rw [joinTokens_joins_zero lex (b :: rest) h]

/-- A token whose split counter is zero is passed through unchanged. -/
theorem splitTok_zero (lex : List String) (tok : String) :
    (splitTok lex tok).2 = 0 → (splitTok lex tok).1 = tok := by
  intro h
  by_cases hg : splitGuard lex tok = true
  · simp [splitTok, hg]
  · cases hfind : (List.range' 1 (tok.length - 1)).find? (cutOK lex tok) with
    | some cut =>
      simp [splitTok, hg, hfind] at h
    | none =>
      simp [splitTok, hg, hfind]

/-- A left fold of Nat addition is zero only when the seed and every
element are zero. -/
theorem foldl_add_zero : ∀ (l : List Nat) (n : Nat),
    l.foldl (· + ·) n = 0 → n = 0 ∧ ∀ x ∈ l, x = 0
  | [], n => by simp
  | x :: xs, n => by
    intro h
    rw [List.foldl_cons] at h
    obtain ⟨h1, h2⟩ := foldl_add_zero xs (n + x) h
    refine ⟨by omega, fun y hy => ?_⟩
    rcases List.mem_cons.mp hy with he | he
    · omega
    · exact h2 y he

/-- Mapping a function that fixes every element of a list is the identity. -/
theorem map_eq_self {α : Type} (f : α → α) : ∀ (l : List α),
    (∀ t ∈ l, f t = t) → l.map f = l
  | [] => by simp
  | x :: xs => by
    intro h
    rw [List.map_cons, h x (by simp), map_eq_self f xs (fun t ht => h t (by simp [ht]))]

/-- C9 counterexample: with Lexicon {the}, the join pass output on
"t he x" is "the x", not the input's whitespace-split tokens rejoined with
single spaces (which is "t he x"); the claimed equality fails whenever a
join fires. -/
theorem rejoin_changed_tokens :
    (joinStage ["the"] "t he x").1 ≠ sjoin (pySplit "t he x") := by decide

/-- C9 amended: the output of each repair pass is its processed token list
rejoined with single spaces; when zero joins (resp. zero splits) are
performed it is exactly the input's whitespace-split tokens rejoined with
single spaces, a string in which every character coming from the original
whitespace is a single space — in particular it contains no newline and
no tab character. -/
theorem rejoin_frame_effect (lex : List String) (text : String)
    (hlex : lex.isEmpty = false) :
    ((joinStage lex text).2.2 = 0 → (joinStage lex text).1 = sjoin (pySplit text)) ∧
    ((splitStage lex text).2 = 0 → (splitStage lex text).1 = sjoin (pySplit text)) ∧
    (∀ c ∈ (sjoin (pySplit text)).data, c ≠ '\n' ∧ c ≠ '\t') := by
  refine ⟨?_, ?_, ?_⟩
  · intro h
    simp only [joinStage, hlex, Bool.false_eq_true, if_false] at h ⊢
    rw [joinTokens_joins_zero lex (pySplit text) h]
  · intro h
    simp only [splitStage, hlex, Bool.false_eq_true, if_false, List.map_map] at h ⊢
    obtain ⟨-, hall⟩ := foldl_add_zero _ 0 h
    have hfix : ∀ t ∈ pySplit text, (Prod.fst ∘ splitTok lex) t = t := by
      intro t ht
      exact splitTok_zero lex t (hall _ (List.mem_map.mpr ⟨t, ht, rfl⟩))
    rw [map_eq_self _ _ hfix]
  · intro c hc
    rcases sjoin_chars (pySplit text) c hc with h | ⟨t, ht, hct⟩
    · subst h
      exact ⟨by decide, by decide⟩
    · have hsp := pySplitAux_chars text.data [] (by simp) t ht c hct
      constructor
      · intro he
        rw [he] at hsp
        simp [isPySpace] at hsp
      · intro he
        rw [he] at hsp
        simp [isPySpace] at hsp

/-- Witness for C9 amended: with Lexicon {zz} nothing joins or splits in
"a\nb", and both passes return the tokens rejoined, collapsing the
newline to a single space. -/
theorem rejoin_frame_effect_witness :
    (joinStage ["zz"] "a\nb").1 = sjoin (pySplit "a\nb") ∧
      (splitStage ["zz"] "a\nb").1 = sjoin (pySplit "a\nb") := by
  have h := rejoin_frame_effect ["zz"] "a\nb" rfl
  exact ⟨h.1 (by decide), h.2.1 (by decide)⟩

/-!
## Claim C2 — inter-chunk overlap carry-over
-/

/-- Invariant of the chunk assembly loop: all adjacent emitted chunks
overlap (the next chunk starts with the previous chunk's last 30 words),
and the running buffer starts with the last emitted chunk's last 30 words
and holds at least 30 words. -/
def chunkInv (st : List (List String) × List String) : Prop :=
  (∀ i a b, st.1[i]? = some a → st.1[i + 1]? = some b →
    b.take 30 = a.drop (a.length - 30)) ∧
  (∀ last, st.1.getLast? = some last →
    st.2.take 30 = last.drop (last.length - 30) ∧ 30 ≤ st.2.length)

/-- Appending a chunk whose first 30 words are the last chunk's last 30
words preserves the pairwise overlap property. -/
theorem overlap_append (chunks : List (List String)) (cur : List String)
    (h1 : ∀ i a b, chunks[i]? = some a → chunks[i + 1]? = some b →
      b.take 30 = a.drop (a.length - 30))
    (h2 : ∀ last, chunks.getLast? = some last →
      cur.take 30 = last.drop (last.length - 30)) :
    ∀ i a b, (chunks ++ [cur])[i]? = some a → (chunks ++ [cur])[i + 1]? = some b →
      b.take 30 = a.drop (a.length - 30) := by
  intro i a b hia hib
  rw [List.getElem?_append] at hia hib
  by_cases hi1 : i + 1 < chunks.length
  · rw [if_pos hi1] at hib
    rw [if_pos (by omega)] at hia
    exact h1 i a b hia hib
  · rw [if_neg hi1] at hib
    by_cases hi2 : i + 1 = chunks.length
    · have hz : i + 1 - chunks.length = 0 := by omega
      rw [hz] at hib
      have hb : b = cur := by
        simp at hib
        exact hib.symm
      rw [if_pos (by omega)] at hia
      have hlast : chunks.getLast? = some a := by
        rw [List.getLast?_eq_getElem?]
        have he : chunks.length - 1 = i := by omega
        rw [he]
        exact hia
      rw [hb]
      exact h2 a hlast
    · exfalso
      have hge : 1 ≤ i + 1 - chunks.length := by omega
      rw [List.getElem?_eq_none (by simp; omega)] at hib
      cases hib

/-- One loop step preserves the invariant, provided the sentence has at
most 100 words (so no overflow can meet a buffer of 80 or fewer words,
the situation in which the buffer would be discarded unemitted). -/
theorem chunkStep_inv (st : List (List String) × List String) (w : List String)
    (hw : w.length ≤ 100) (h : chunkInv st) : chunkInv (chunkStep st w) := by
  obtain ⟨chunks, cur⟩ := st
  obtain ⟨h1, h2⟩ := h
  simp only [chunkInv, chunkStep] at *
  by_cases hfit : cur.length + w.length ≤ 180
  · rw [if_pos hfit]
    refine ⟨h1, fun last hl => ?_⟩
    obtain ⟨ha, hb⟩ := h2 last hl
    constructor
    · rw [List.take_append_of_le_length (by omega)]
      exact ha
    · simp
      omega
  · rw [if_neg hfit]
    have hemit : cur.length > 80 := by omega
    rw [if_pos hemit]
    constructor
    · exact overlap_append chunks cur h1 (fun last hl => (h2 last hl).1)
    · intro last hl
      rw [List.getLast?_concat] at hl
      cases hl
      have hdl : (cur.drop (cur.length - 30)).length = 30 := by
        rw [List.length_drop]
        omega
      constructor
      · rw [List.take_append_of_le_length (by omega)]
        rw [List.take_of_length_le (by omega)]
      · simp
        omega

/-- The whole loop preserves the invariant. -/
theorem chunkFold_inv : ∀ (sents : List (List String))
    (st : List (List String) × List String),
    (∀ w ∈ sents, w.length ≤ 100) → chunkInv st →
    chunkInv (sents.foldl chunkStep st)
  | [], st => fun _ h => by simpa using h
  | w :: ws, st => fun hws h => by
    rw [List.foldl_cons]
    exact chunkFold_inv ws (chunkStep st w)
      (fun x hx => hws x (by simp [hx]))
      (chunkStep_inv st w (hws w (by simp)) h)

set_option maxRecDepth 100000 in
/-- C2 counterexample: a 180-word sentence, a 1-word sentence, a 150-word
sentence and a 1-word sentence produce two chunks, and the second chunk's
first 30 words are not the first chunk's last 30 words: the third sentence
overflowed a 31-word buffer (at most 80 words), which was replaced
unemitted by its last 30 words, shifting the overlap by one word. -/
theorem chunk_overlap_fails :
    (chunkAssemble [List.replicate 180 "a", ["b"], List.replicate 150 "c",
        ["d"]]).length = 2 ∧
      ¬ ((chunkAssemble [List.replicate 180 "a", ["b"], List.replicate 150 "c",
            ["d"]]).getD 1 []).take 30 =
          ((chunkAssemble [List.replicate 180 "a", ["b"], List.replicate 150 "c",
              ["d"]]).getD 0 []).drop
            (((chunkAssemble [List.replicate 180 "a", ["b"], List.replicate 150 "c",
                ["d"]]).getD 0 []).length - 30) := by
  refine ⟨by decide, by decide⟩

/-- C2 amended: when every sentence has at most 100 words (so that no
overflow ever meets a buffer of at most 80 words and every overflow emits
its buffer), any two consecutively emitted chunks overlap: the last 30
words of chunk k are exactly the first 30 words of chunk k+1. -/
theorem chunk_overlap (sents : List (List String))
    (H : ∀ w ∈ sents, w.length ≤ 100) (k : Nat) (c1 c2 : List String)
    (h1 : (chunkAssemble sents)[k]? = some c1)
    (h2 : (chunkAssemble sents)[k + 1]? = some c2) :
    c2.take 30 = c1.drop (c1.length - 30) := by
  have hinv := chunkFold_inv sents ([], []) H (by
    constructor
    · intro i a b hia hib
      simp at hia
    · intro last hl
      simp at hl)
  simp only [chunkAssemble] at h1 h2
  by_cases hflush : (sents.foldl chunkStep ([], [])).2.length > 80
  · rw [if_pos hflush] at h1 h2
    exact overlap_append _ _ hinv.1 (fun last hl => (hinv.2 last hl).1) k c1 c2 h1 h2
  · rw [if_neg hflush] at h1 h2
    exact hinv.1 k c1 c2 h1 h2

set_option maxRecDepth 100000 in
/-- Witness for C2 amended: four 90-word sentences yield chunks of 180,
120 and 120 words, and the second chunk's first 30 words coincide with the
first chunk's last 30 words. -/
theorem chunk_overlap_witness :
    (List.replicate 120 "x").take 30 =
      (List.replicate 180 "x").drop ((List.replicate 180 "x").length - 30) :=
  chunk_overlap (List.replicate 4 (List.replicate 90 "x")) (by decide) 0
    (List.replicate 180 "x") (List.replicate 120 "x") (by decide) (by decide)

/-!
## Claim C3 — idempotence of the TextNormalizer
-/

/-- Characters produced by a single-character replacement come from the
replacement value or are kept characters different from the key. -/
theorem mem_replaceChar {k : Char} {v l : List Char} {c : Char}
    (h : c ∈ replaceChar k v l) : c ∈ v ∨ (c ∈ l ∧ c ≠ k) := by
  rw [replaceChar, List.mem_flatMap] at h
  obtain ⟨a, ha, hc⟩ := h
  by_cases hak : a = k
  · rw [if_pos hak] at hc
    exact Or.inl hc
  · rw [if_neg hak] at hc
    rw [List.mem_singleton] at hc
    subst hc
    exact Or.inr ⟨ha, hak⟩

/-- A replacement whose key does not occur is the identity. -/
theorem replaceChar_eq_self {k : Char} {v : List Char} (l : List Char)
    (h : ∀ c ∈ l, c ≠ k) : replaceChar k v l = l := by
  induction l with
  | nil => rfl
  | cons a as ih =>
    rw [replaceChar, List.flatMap_cons, if_neg (h a (by simp)), List.singleton_append]
    rw [show as.flatMap (fun c => if c = k then v else [c]) = replaceChar k v as from rfl]
    rw [ih (fun c hc => h c (by simp [hc]))]

/-- Applying a table whose values avoid a character keeps that character
absent. -/
theorem applyTable_pres : ∀ (t : List (Char × List Char)) (l : List Char) (k0 : Char),
    (∀ c ∈ l, c ≠ k0) → (∀ kv ∈ t, k0 ∉ kv.2) → ∀ c ∈ applyTable t l, c ≠ k0
  | [], l, k0 => fun hl _ => by simpa [applyTable] using hl
  | kv :: t', l, k0 => fun hl hv => by
    rw [applyTable]
    refine applyTable_pres t' _ k0 ?_ (fun kv' h' => hv kv' (by simp [h']))
    intro c hc
    rcases mem_replaceChar hc with h | ⟨h, _⟩
    · intro heq
      subst heq
      exact hv kv (by simp) h
    · exact hl c h

/-- After applying a table none of whose values contains the key of one of
its entries, that key no longer occurs. -/
theorem applyTable_removes : ∀ (t : List (Char × List Char)) (l : List Char)
    (kv0 : Char × List Char), kv0 ∈ t → (∀ kv ∈ t, kv0.1 ∉ kv.2) →
    ∀ c ∈ applyTable t l, c ≠ kv0.1
  | [], _, kv0 => fun hmem => absurd hmem (by simp)
  | kv :: t', l, kv0 => fun hmem hv => by
    rw [applyTable]
    rcases List.mem_cons.mp hmem with he | hm
    · subst he
      refine applyTable_pres t' _ kv0.1 ?_ (fun kv' h' => hv kv' (by simp [h']))
      intro c hc
      rcases mem_replaceChar hc with h | ⟨_, hne⟩
      · intro heq
        subst heq
        exact hv kv0 (by simp) h
      · exact hne
    · exact applyTable_removes t' _ kv0 hm (fun kv' h' => hv kv' (by simp [h']))

/-- A table none of whose keys occurs in the list is the identity. -/
theorem applyTable_eq_self : ∀ (t : List (Char × List Char)) (l : List Char),
    (∀ c ∈ l, ∀ kv ∈ t, c ≠ kv.1) → applyTable t l = l
  | [], l => fun _ => rfl
  | kv :: t', l => fun h => by
    rw [applyTable, replaceChar_eq_self l (fun c hc => h c hc kv (by simp))]
    exact applyTable_eq_self t' l (fun c hc kv' hkv' => h c hc kv' (by simp [hkv']))

set_option maxHeartbeats 2000000 in
/-- The output of the character normalization contains no ligature key, no
quote/dash key and no zero-width character. -/
theorem charNormalize_chars_clean (l : List Char) :
    ∀ c ∈ charNormalize l,
      (∀ kv ∈ ligTable, c ≠ kv.1) ∧ (∀ kv ∈ quoteTable, c ≠ kv.1) ∧ (!isZW c) = true := by
  have hv1 : ∀ kv0 ∈ ligTable, ∀ kv ∈ ligTable, kv0.1 ∉ kv.2 := by decide
  have hv2 : ∀ kv0 ∈ ligTable, ∀ kv ∈ quoteTable, kv0.1 ∉ kv.2 := by decide
  have hv3 : ∀ kv0 ∈ quoteTable, ∀ kv ∈ quoteTable, kv0.1 ∉ kv.2 := by decide
  intro c hc
  have hmem : c ∈ applyTable quoteTable (applyTable ligTable l) :=
    @List.mem_of_mem_filter Char (fun x => !isZW x) c
      (applyTable quoteTable (applyTable ligTable l)) hc
  have hzw : (!isZW c) = true :=
    @List.of_mem_filter Char (fun x => !isZW x) c
      (applyTable quoteTable (applyTable ligTable l)) hc
  have hlig : ∀ kv ∈ ligTable, c ≠ kv.1 := by
    intro kv0 hkv0
    have hstep : ∀ x ∈ applyTable ligTable l, x ≠ kv0.1 :=
      applyTable_removes ligTable l kv0 hkv0 (hv1 kv0 hkv0)
    exact applyTable_pres quoteTable _ kv0.1 hstep (hv2 kv0 hkv0) c hmem
  have hquote : ∀ kv ∈ quoteTable, c ≠ kv.1 := by
    intro kv0 hkv0
    exact applyTable_removes quoteTable _ kv0 hkv0 (hv3 kv0 hkv0) c hmem
  exact ⟨hlig, hquote, hzw⟩

/-- C3 amended: the full stage is not idempotent (a second application can
perform further hyphen line-break joins, URL removals or page-marker
removals on its own output), but its character-normalization prefix —
ligature expansion, quote and dash mapping, zero-width removal — is
idempotent: applying it a second time to the characters of its own output
yields them unchanged. -/
theorem charNormalize_idempotent (l : List Char) :
    charNormalize (charNormalize l) = charNormalize l := by
  have hclean := charNormalize_chars_clean l
  rw [show charNormalize (charNormalize l) =
      (applyTable quoteTable (applyTable ligTable (charNormalize l))).filter
        (fun c => !isZW c) from rfl]
  rw [applyTable_eq_self ligTable (charNormalize l) (fun c hc => (hclean c hc).1)]
  rw [applyTable_eq_self quoteTable (charNormalize l) (fun c hc => (hclean c hc).2.1)]
  rw [List.filter_eq_self.mpr (fun c hc => (hclean c hc).2.2)]

set_option maxHeartbeats 1000000 in
/-- C3 counterexample: the full TextNormalizer stage is not idempotent.
On "a-\nb-\nc" the hyphen line-break fix rewrites the first hyphenated
break and resumes scanning after it, leaving "ab-\nc"; a second
application rewrites the remaining break to "abc". -/
theorem normalize_not_idempotent :
    normalizeText (normalizeText "a-\nb-\nc") ≠ normalizeText "a-\nb-\nc" := by decide
